import Mathlib

/-!
# Verification of `xmltextnorm.py`

Shallow embedding of the single-file pipeline in `xmltextnorm.py`
(parse → flatten → normalize whitespace → sentence-break → word-wrap),
with theorems settling the specification claims.

Python strings are modelled as `List Char` (for the character-level
normalizer and wrapper) or `String` (for the flattener and output join).
-/

set_option autoImplicit false
set_option maxRecDepth 4000

namespace Xmltextnorm

/-! ## Word wrapper: `splitline` (source lines 70–90)

```
def splitline(line):
    out = []
    L = line[:]
    while L:
        if len(L) < 72:
            out.append(L)
            L = u''
        else:
            words = L.split(u' ')          # dead: `words` is never used
            sPos = L[60:].find(u' ')
            if sPos >= 0:
                out.append(L[:60+sPos])
                L = L[60+sPos + 1:]
            else:
                out.append(L)
                L = u''
    return out
```
-/

/-- Python `s.find(' ')`: index of the first space, as an `Option`
(`none` models Python's `-1`). -/
def findSpaceIdx : List Char → Option Nat
  | [] => none
  | c :: cs => if c = ' ' then some 0 else (findSpaceIdx cs).map (· + 1)

/-- The `while L:` loop of `splitline`, with explicit fuel.  Each loop
iteration either terminates or shortens `L` by at least 61 characters, so
fuel `L.length` always suffices (`splitlineGo_fuel_irrel`). -/
def splitlineGo : Nat → List Char → List (List Char)
  | _, [] => []
  | 0, _ :: _ => []
  | fuel + 1, c :: cs =>
    let l := c :: cs
    if l.length < 72 then [l]
    else
      match findSpaceIdx (l.drop 60) with
      | some k => l.take (60 + k) :: splitlineGo fuel (l.drop (60 + k + 1))
      | none => [l]

/-- `splitline` from the source: break one line into shorter lines. -/
def splitline (line : List Char) : List (List Char) :=
  splitlineGo line.length line

/-- Python `u' '.join(out)`. -/
def joinSp : List (List Char) → List Char
  | [] => []
  | [x] => x
  | x :: y :: rest => x ++ ' ' :: joinSp (y :: rest)

/-! ### Basic facts about `findSpaceIdx` -/

theorem findSpaceIdx_some {l : List Char} {k : Nat}
    (h : findSpaceIdx l = some k) :
    k < l.length ∧ l[k]? = some ' ' ∧ ∀ j < k, l[j]? ≠ some ' ' := by
  induction l generalizing k with
  | nil => simp [findSpaceIdx] at h
  | cons c cs ih =>
    by_cases hc : c = ' '
    · simp [findSpaceIdx, hc] at h
      subst h
      exact ⟨Nat.succ_pos _, by simp [hc], fun j hj => by omega⟩
    · simp [findSpaceIdx, hc] at h
      obtain ⟨k', hk', rfl⟩ := h
      obtain ⟨h1, h2, h3⟩ := ih hk'
      refine ⟨by simpa using h1, by simpa using h2, ?_⟩
      intro j hj
      cases j with
      | zero => simpa using hc
      | succ j' =>
        simpa using h3 j' (by omega)

theorem findSpaceIdx_none {l : List Char}
    (h : findSpaceIdx l = none) : ∀ c ∈ l, c ≠ ' ' := by
  induction l with
  | nil => simp
  | cons c cs ih =>
    intro x hx
    by_cases hc : c = ' '
    · rw [findSpaceIdx, if_pos hc] at h
      exact absurd h (by simp)
    · rw [findSpaceIdx, if_neg hc] at h
      have h' : findSpaceIdx cs = none := by
        cases hfs : findSpaceIdx cs with
        | none => rfl
        | some k => rw [hfs] at h; simp at h
      rcases List.mem_cons.mp hx with rfl | hx'
      · exact hc
      · exact ih h' x hx'

/-- Unfolding equation for `splitlineGo` at positive fuel on a nonempty list. -/
theorem splitlineGo_succ (fuel : Nat) (c : Char) (cs : List Char) :
    splitlineGo (fuel + 1) (c :: cs) =
      if (c :: cs).length < 72 then [c :: cs]
      else
        match findSpaceIdx ((c :: cs).drop 60) with
        | some k =>
          (c :: cs).take (60 + k) :: splitlineGo fuel ((c :: cs).drop (60 + k + 1))
        | none => [c :: cs] := rfl

/-! ### Fuel adequacy for `splitlineGo` -/

theorem splitlineGo_fuel_irrel :
    ∀ (f₁ f₂ : Nat) (l : List Char), l.length ≤ f₁ → l.length ≤ f₂ →
      splitlineGo f₁ l = splitlineGo f₂ l := by
  intro f₁
  induction f₁ with
  | zero =>
    intro f₂ l h1 _
    have : l = [] := List.length_eq_zero.mp (Nat.le_zero.mp h1)
    subst this
    cases f₂ <;> rfl
  | succ f ih =>
    intro f₂ l h1 h2
    cases l with
    | nil => cases f₂ <;> rfl
    | cons c cs =>
      cases f₂ with
      | zero => simp at h2
      | succ f' =>
        rw [splitlineGo_succ, splitlineGo_succ]
        by_cases hlen : (c :: cs).length < 72
        · rw [if_pos hlen, if_pos hlen]
        · rw [if_neg hlen, if_neg hlen]
          push_neg at hlen
          cases hf : findSpaceIdx ((c :: cs).drop 60) with
          | none => rfl
          | some k =>
            have hk := (findSpaceIdx_some hf).1
            rw [List.length_drop] at hk
            have hdroplen : ((c :: cs).drop (60 + k + 1)).length ≤ f := by
              rw [List.length_drop]; omega
            have hdroplen' : ((c :: cs).drop (60 + k + 1)).length ≤ f' := by
              rw [List.length_drop]; omega
            simp only []
            rw [ih f' _ hdroplen hdroplen']

/-- One-step unfolding of `splitline`, independent of the fuel plumbing. -/
theorem splitline_eq (l : List Char) :
    splitline l =
      if l = [] then []
      else if l.length < 72 then [l]
      else
        match findSpaceIdx (l.drop 60) with
        | some k => l.take (60 + k) :: splitline (l.drop (60 + k + 1))
        | none => [l] := by
  cases l with
  | nil => rfl
  | cons c cs =>
    rw [if_neg (List.cons_ne_nil c cs)]
    show splitlineGo (cs.length + 1) (c :: cs) = _
    rw [splitlineGo_succ]
    by_cases hlen : (c :: cs).length < 72
    · rw [if_pos hlen, if_pos hlen]
    · rw [if_neg hlen, if_neg hlen]
      push_neg at hlen
      cases hf : findSpaceIdx ((c :: cs).drop 60) with
      | none => rfl
      | some k =>
        have hk := (findSpaceIdx_some hf).1
        rw [List.length_drop] at hk
        simp only []
        congr 1
        apply splitlineGo_fuel_irrel
        · rw [List.length_drop]
          simp only [List.length_cons] at hlen ⊢
          omega
        · exact Nat.le_refl _

/-! ### Branch lemmas for `splitline` -/

theorem splitline_nil : splitline [] = [] := rfl

theorem splitline_short {l : List Char} (hne : l ≠ []) (hlen : l.length < 72) :
    splitline l = [l] := by
  rw [splitline_eq, if_neg hne, if_pos hlen]

theorem splitline_break {l : List Char} {k : Nat} (hlen : 72 ≤ l.length)
    (hf : findSpaceIdx (l.drop 60) = some k) :
    splitline l = l.take (60 + k) :: splitline (l.drop (60 + k + 1)) := by
  have hne : l ≠ [] := by
    intro h; subst h; simp at hlen
  rw [splitline_eq, if_neg hne, if_neg (by omega)]
  simp [hf]

theorem splitline_noBreak {l : List Char} (hlen : 72 ≤ l.length)
    (hf : findSpaceIdx (l.drop 60) = none) :
    splitline l = [l] := by
  have hne : l ≠ [] := by
    intro h; subst h; simp at hlen
  rw [splitline_eq, if_neg hne, if_neg (by omega)]
  simp [hf]

theorem splitline_ne_nil {l : List Char} (hne : l ≠ []) :
    splitline l ≠ [] := by
  by_cases hlen : l.length < 72
  · rw [splitline_short hne hlen]; simp
  · push_neg at hlen
    cases hf : findSpaceIdx (l.drop 60) with
    | some k => rw [splitline_break hlen hf]; simp
    | none => rw [splitline_noBreak hlen hf]; simp

/-- Invariant of every emitted sub-line: it is shorter than 72
characters, or it contains no space at any offset ≥ 60 (so the break
search had nothing to find). -/
theorem splitline_mem_invariant :
    ∀ (n : Nat) (l : List Char), l.length ≤ n →
      ∀ out ∈ splitline l,
        out.length < 72 ∨ ∀ i, 60 ≤ i → out[i]? ≠ some ' ' := by
  intro n
  induction n with
  | zero =>
    intro l hl out hout
    have : l = [] := List.length_eq_zero.mp (Nat.le_zero.mp hl)
    subst this
    simp [splitline_nil] at hout
  | succ n ih =>
    intro l hl out hout
    by_cases hne : l = []
    · subst hne; simp [splitline_nil] at hout
    by_cases hlen : l.length < 72
    case pos =>
      rw [splitline_short hne hlen] at hout
      rcases List.mem_singleton.mp hout with rfl
      exact Or.inl hlen
    case neg =>
      push_neg at hlen
      cases hf : findSpaceIdx (l.drop 60) with
      | none =>
        rw [splitline_noBreak hlen hf] at hout
        rcases List.mem_singleton.mp hout with rfl
        refine Or.inr fun i hi hsp => ?_
        have : (out.drop 60)[i - 60]? = some ' ' := by
          rw [List.getElem?_drop]
          rwa [Nat.add_sub_cancel' hi]
        exact findSpaceIdx_none hf ' ' (List.getElem?_mem this) rfl
      | some k =>
        obtain ⟨hk, hksp, hkmin⟩ := findSpaceIdx_some hf
        rw [splitline_break hlen hf] at hout
        rcases List.mem_cons.mp hout with rfl | hout'
        · refine Or.inr fun i hi hsp => ?_
          by_cases hik : i < 60 + k
          · rw [List.getElem?_take_of_lt hik] at hsp
            have : (l.drop 60)[i - 60]? = some ' ' := by
              rw [List.getElem?_drop]
              rwa [Nat.add_sub_cancel' hi]
            exact hkmin (i - 60) (by omega) this
          · have : (l.take (60 + k)).length ≤ i := by
              rw [List.length_take]; omega
            rw [List.getElem?_eq_none this] at hsp
            exact Option.noConfusion hsp
        · refine ih (l.drop (60 + k + 1)) ?_ out hout'
          rw [List.length_drop]
          omega

/-- `joinSp` on a list with at least two sub-lines. -/
theorem joinSp_cons {x : List Char} {rest : List (List Char)} (h : rest ≠ []) :
    joinSp (x :: rest) = x ++ ' ' :: joinSp rest := by
  cases rest with
  | nil => exact absurd rfl h
  | cons y ys => rfl

/-- Rejoining the sub-lines with single spaces restores the input line,
provided the line does not end in a space. -/
theorem joinSp_splitline :
    ∀ (n : Nat) (l : List Char), l.length ≤ n → l.getLast? ≠ some ' ' →
      joinSp (splitline l) = l := by
  intro n
  induction n with
  | zero =>
    intro l hl _
    have : l = [] := List.length_eq_zero.mp (Nat.le_zero.mp hl)
    subst this
    rfl
  | succ n ih =>
    intro l hl hlast
    by_cases hne : l = []
    · subst hne; rfl
    by_cases hlen : l.length < 72
    case pos =>
      rw [splitline_short hne hlen]
      rfl
    case neg =>
      push_neg at hlen
      cases hf : findSpaceIdx (l.drop 60) with
      | none =>
        rw [splitline_noBreak hlen hf]
        rfl
      | some k =>
        obtain ⟨hk, hksp, _⟩ := findSpaceIdx_some hf
        rw [List.length_drop] at hk
        have hsp : l[60 + k]? = some ' ' := by
          rw [List.getElem?_drop] at hksp
          exact hksp
        have hlt : 60 + k < l.length := by omega
        have hremne : l.drop (60 + k + 1) ≠ [] := by
          intro hnil
          rw [List.drop_eq_nil_iff] at hnil
          have hlen1 : l.length = 60 + k + 1 := by omega
          rw [List.getLast?_eq_getElem?, hlen1] at hlast
          simpa using hlast hsp
        rw [splitline_break hlen hf,
          joinSp_cons (splitline_ne_nil hremne)]
        have hrem : joinSp (splitline (l.drop (60 + k + 1))) =
            l.drop (60 + k + 1) := by
          refine ih _ ?_ ?_
          · rw [List.length_drop]; omega
          · have : l = l.take (60 + k + 1) ++ l.drop (60 + k + 1) :=
              (List.take_append_drop _ l).symm
            rw [this, List.getLast?_append] at hlast
            intro hr
            rw [hr] at hlast
            exact hlast rfl
        rw [hrem]
        have hget : l[60 + k] = ' ' := by
          obtain ⟨_, hv⟩ := List.getElem?_eq_some.mp hsp
          exact hv
        calc l.take (60 + k) ++ ' ' :: l.drop (60 + k + 1)
            = l.take (60 + k) ++ l.drop (60 + k) := by
              rw [List.drop_eq_getElem_cons hlt, hget]
          _ = l := List.take_append_drop _ l

/-! ### Concrete lines used by the wrapper claims -/

/-- A 100-character line whose first space at or after offset 60 sits
exactly at offset 65 (the example of §8 of the spec). -/
def line100 : List Char := List.replicate 65 'x' ++ ' ' :: List.replicate 34 'y'

/-- A 72-character line whose only space is its last character: the break
search finds it, consumes it, and leaves an empty remainder. -/
def line72sp : List Char := List.replicate 71 'x' ++ [' ']

/-- A 103-character line whose only space sits at offset 1; from offset 60
onward there is no space, so the line is emitted whole. -/
def lineEarlySpace : List Char := 'a' :: ' ' :: 'b' :: List.replicate 100 'x'

/-! ## Claim C3 -/

/-- Claim C3, as stated, is false at the empty line: `splitline` returns
the empty list for it, not the one-element list containing the empty
line (`while L:` never runs on an empty string). -/
theorem c3_counterexample :
    ([] : List Char).length < 72 ∧
    splitline [] = [] ∧ splitline [] ≠ [([] : List Char)] := by decide

/-- Claim C3 (amended): every NONEMPTY line strictly shorter than 72
characters is emitted unchanged as the one-element list containing it;
the empty line instead yields the empty list of sub-lines. -/
theorem c3_short_line_passthrough (l : List Char) (hne : l ≠ [])
    (hlen : l.length < 72) : splitline l = [l] :=
  splitline_short hne hlen

theorem c3_witness : splitline ['h', 'i'] = [['h', 'i']] :=
  c3_short_line_passthrough ['h', 'i'] (by decide) (by decide)

/-! ## Claim C4 -/

/-- Claim C4, as stated, is false: `lineEarlySpace` (length 103 ≥ 72) is
emitted whole as an output sub-line although it does contain an interior
space before the width boundary — at offset 1, which is before 72.  The
code's break search only starts at offset 60, so a space before offset 60
cannot prevent an over-long output line. -/
theorem c4_counterexample :
    lineEarlySpace ∈ splitline lineEarlySpace ∧
    ¬ (lineEarlySpace.length < 72 ∨
        ∀ i < 72, 0 < i → i + 1 < lineEarlySpace.length →
          lineEarlySpace[i]? ≠ some ' ') := by decide

/-- Claim C4 (amended): every output sub-line of the word-wrapper has
length below 72, or contains no space at any offset ≥ 60 (the offset the
break search starts from), so that no break point was available. -/
theorem c4_line_invariant (l out : List Char) (hout : out ∈ splitline l) :
    out.length < 72 ∨ ∀ i, 60 ≤ i → out[i]? ≠ some ' ' :=
  splitline_mem_invariant l.length l (Nat.le_refl _) out hout

theorem c4_witness :
    lineEarlySpace.length < 72 ∨
      ∀ i, 60 ≤ i → lineEarlySpace[i]? ≠ some ' ' :=
  c4_line_invariant lineEarlySpace lineEarlySpace (by decide)

/-! ## Claim C5 -/

/-- Claim C5: for a segment of length at least 72, if the first space at
or after offset 60 is at relative offset `k`, `splitline` emits the
prefix of length `60 + k`, drops the separating space from both halves,
and continues on the remainder; if there is no such space it emits the
whole segment and stops.  On the 100-character `line100`, whose first
space at or after offset 60 is exactly at offset 65, the first sub-line
has length 65. -/
theorem c5_long_line_split :
    (∀ (l : List Char) (k : Nat), 72 ≤ l.length →
        findSpaceIdx (l.drop 60) = some k →
        splitline l = l.take (60 + k) :: splitline (l.drop (60 + k + 1))) ∧
    (∀ l : List Char, 72 ≤ l.length →
        findSpaceIdx (l.drop 60) = none → splitline l = [l]) ∧
    line100.length = 100 ∧
    findSpaceIdx (line100.drop 60) = some 5 ∧
    splitline line100 = [List.replicate 65 'x', List.replicate 34 'y'] ∧
    (List.replicate 65 'x' : List Char).length = 65 :=
  ⟨fun _ _ h1 h2 => splitline_break h1 h2,
   fun _ h1 h2 => splitline_noBreak h1 h2,
   by decide, by decide, by decide, by decide⟩

theorem c5_witness :
    splitline line100 = line100.take 65 :: splitline (line100.drop 66) :=
  c5_long_line_split.1 line100 5 (by decide) (by decide)

/-! ## Claim C10 -/

/-- Claim C10, as stated, is false at `line72sp`: its length is 72, the
break search finds the space at offset 71, emits the 71-character prefix
and consumes the space — but the remainder is empty, so no further
sub-line is produced and the rejoined text is missing the trailing
space. -/
theorem c10_counterexample :
    splitline line72sp = [List.replicate 71 'x'] ∧
    joinSp (splitline line72sp) ≠ line72sp := by decide

/-- Claim C10 (amended): for every line that does not end in a space
(including the empty line), joining the sub-lines of `splitline` with
single spaces reproduces the original line exactly. -/
theorem c10_join_reproduces (l : List Char) (h : l.getLast? ≠ some ' ') :
    joinSp (splitline l) = l :=
  joinSp_splitline l.length l (Nat.le_refl _) h

theorem c10_witness : joinSp (splitline line100) = line100 :=
  c10_join_reproduces line100 (by decide)

/-! ## Whitespace / sentence normalizer (source lines 103–108)

```
text = text.replace(u'\n', u' ')
text = text.replace(u'\t', u' ')
while u'  ' in text:
    text = text.replace(u'  ', u' ')
for p in u'.,;:!?':
    text = text.replace(u'%s ' % p, u'%s\n' % p)
```
-/

/-- Python `text.replace(a, b)` for single characters: a character map. -/
def replaceChar (a b : Char) (l : List Char) : List Char :=
  l.map fun c => if c = a then b else c

/-- Python `text.replace(u'  ', u' ')`: one left-to-right, non-overlapping
pass replacing each double space by a single space. -/
def replaceDoubleSpace : List Char → List Char
  | [] => []
  | [c] => [c]
  | c₁ :: c₂ :: rest =>
    if c₁ = ' ' ∧ c₂ = ' ' then ' ' :: replaceDoubleSpace rest
    else c₁ :: replaceDoubleSpace (c₂ :: rest)

/-- Python `u'  ' in text`. -/
def hasDoubleSpace : List Char → Bool
  | [] => false
  | [_] => false
  | c₁ :: c₂ :: rest => (c₁ == ' ' && c₂ == ' ') || hasDoubleSpace (c₂ :: rest)

/-- The `while u'  ' in text:` loop, with explicit fuel.  Each iteration
with a double space present strictly shortens the text, so fuel
`l.length` always suffices. -/
def collapseGo : Nat → List Char → List Char
  | 0, l => l
  | fuel + 1, l =>
    if hasDoubleSpace l then collapseGo fuel (replaceDoubleSpace l) else l

/-- The fully collapsed text: the fixed point reached by the while loop. -/
def collapseSpaces (l : List Char) : List Char := collapseGo l.length l

/-- The six sentence-ending marks of `for p in u'.,;:!?':`. -/
def sentenceMarks : List Char := ['.', ',', ';', ':', '!', '?']

def isMark (c : Char) : Bool := sentenceMarks.contains c

/-- Python `text.replace(u'%s ' % p, u'%s\n' % p)`: one left-to-right,
non-overlapping pass replacing each `p`-space pair by `p`-newline. -/
def breakAfter (p : Char) : List Char → List Char
  | [] => []
  | [c] => [c]
  | c₁ :: c₂ :: rest =>
    if c₁ = p ∧ c₂ = ' ' then c₁ :: '\n' :: breakAfter p rest
    else c₁ :: breakAfter p (c₂ :: rest)

/-- Steps 1–3 of `xmltextnorm`: newline/tab replacement, double-space
collapsing, sentence-break insertion. -/
def normalizeText (s : List Char) : List Char :=
  sentenceMarks.foldl (fun t p => breakAfter p t)
    (collapseSpaces (replaceChar '\t' ' ' (replaceChar '\n' ' ' s)))

/-- `true` iff every newline in the text is immediately preceded by a
sentence mark; the flag records whether a newline may appear next
(i.e. whether the previous character was a mark). -/
def newlinesMarked : Bool → List Char → Bool
  | _, [] => true
  | allow, c :: rest => (c != '\n' || allow) && newlinesMarked (isMark c) rest

/-- `true` iff the text has no sentence mark immediately followed by a
space (so step 3 has nothing to replace). -/
def noMarkSpace : List Char → Bool
  | [] => true
  | [_] => true
  | c₁ :: c₂ :: rest => !(isMark c₁ && c₂ == ' ') && noMarkSpace (c₂ :: rest)

/-! ### Properties of the double-space collapsing loop -/

theorem replaceDoubleSpace_length_le (l : List Char) :
    (replaceDoubleSpace l).length ≤ l.length := by
  induction l using replaceDoubleSpace.induct with
  | case1 => simp [replaceDoubleSpace]
  | case2 c => simp [replaceDoubleSpace]
  | case3 c₁ c₂ rest h ih =>
    simp only [replaceDoubleSpace, if_pos h, List.length_cons]
    omega
  | case4 c₁ c₂ rest h ih =>
    simp only [replaceDoubleSpace, if_neg h, List.length_cons] at *
    omega

theorem replaceDoubleSpace_length_lt {l : List Char}
    (h : hasDoubleSpace l = true) :
    (replaceDoubleSpace l).length < l.length := by
  induction l using replaceDoubleSpace.induct with
  | case1 => simp [hasDoubleSpace] at h
  | case2 c => simp [hasDoubleSpace] at h
  | case3 c₁ c₂ rest hm ih =>
    have := replaceDoubleSpace_length_le rest
    simp only [replaceDoubleSpace, if_pos hm, List.length_cons]
    omega
  | case4 c₁ c₂ rest hm ih =>
    have h' : hasDoubleSpace (c₂ :: rest) = true := by
      simp only [hasDoubleSpace, Bool.or_eq_true, Bool.and_eq_true, beq_iff_eq] at h
      rcases h with ⟨h1, h2⟩ | h
      · exact absurd ⟨h1, h2⟩ hm
      · exact h
    simp only [replaceDoubleSpace, if_neg hm, List.length_cons]
    have := ih h'
    simp only [List.length_cons] at this
    omega

theorem mem_replaceDoubleSpace {c : Char} {l : List Char}
    (h : c ∈ replaceDoubleSpace l) : c ∈ l := by
  induction l using replaceDoubleSpace.induct with
  | case1 => simp [replaceDoubleSpace] at h
  | case2 c' => simpa [replaceDoubleSpace] using h
  | case3 c₁ c₂ rest hm ih =>
    rw [replaceDoubleSpace, if_pos hm] at h
    rcases List.mem_cons.mp h with rfl | h'
    · simp [hm.1]
    · simp [List.mem_cons.mpr (Or.inr (ih h'))]
  | case4 c₁ c₂ rest hm ih =>
    rw [replaceDoubleSpace, if_neg hm] at h
    rcases List.mem_cons.mp h with rfl | h'
    · simp
    · simp [List.mem_cons.mpr (Or.inr (ih h'))]

theorem hasDoubleSpace_collapseGo :
    ∀ (fuel : Nat) (l : List Char), l.length ≤ fuel →
      hasDoubleSpace (collapseGo fuel l) = false := by
  intro fuel
  induction fuel with
  | zero =>
    intro l hl
    have : l = [] := List.length_eq_zero.mp (Nat.le_zero.mp hl)
    subst this
    rfl
  | succ n ih =>
    intro l hl
    rw [collapseGo]
    by_cases h : hasDoubleSpace l = true
    · rw [if_pos h]
      exact ih _ (by have := replaceDoubleSpace_length_lt h; omega)
    · rw [if_neg h]
      exact Bool.not_eq_true _ ▸ h

theorem collapseGo_eq_self {l : List Char} (fuel : Nat)
    (h : hasDoubleSpace l = false) : collapseGo fuel l = l := by
  cases fuel with
  | zero => rfl
  | succ n => rw [collapseGo, h]; rfl

theorem mem_collapseGo {c : Char} :
    ∀ (fuel : Nat) (l : List Char), c ∈ collapseGo fuel l → c ∈ l := by
  intro fuel
  induction fuel with
  | zero => intro l h; exact h
  | succ n ih =>
    intro l h
    rw [collapseGo] at h
    by_cases hd : hasDoubleSpace l = true
    · rw [if_pos hd] at h
      exact mem_replaceDoubleSpace (ih _ h)
    · rwa [if_neg hd] at h

/-! ### Properties of single-character replacement -/

theorem mem_replaceChar {a b c : Char} {l : List Char}
    (h : c ∈ replaceChar a b l) : c = b ∨ c ∈ l := by
  simp only [replaceChar, List.mem_map] at h
  obtain ⟨x, hx, hc⟩ := h
  by_cases hxa : x = a
  · rw [if_pos hxa] at hc; exact Or.inl hc.symm
  · rw [if_neg hxa] at hc; exact Or.inr (hc ▸ hx)

theorem not_mem_replaceChar {a b : Char} (hba : b ≠ a) (l : List Char) :
    a ∉ replaceChar a b l := by
  intro h
  simp only [replaceChar, List.mem_map] at h
  obtain ⟨x, _, hc⟩ := h
  by_cases hxa : x = a
  · rw [if_pos hxa] at hc; exact hba hc
  · rw [if_neg hxa] at hc; exact hxa hc

theorem replaceChar_eq_self {a : Char} (b : Char) {l : List Char}
    (h : a ∉ l) : replaceChar a b l = l := by
  induction l with
  | nil => rfl
  | cons c cs ih =>
    have hca : c ≠ a := fun hc => h (hc ▸ List.mem_cons_self c cs)
    have hcs : a ∉ cs := fun hm => h (List.mem_cons_of_mem c hm)
    simp only [replaceChar, List.map_cons, if_neg hca]
    exact congrArg (c :: ·) (ih hcs)

/-! ### Properties of sentence-break insertion -/

theorem breakAfter_head? (p : Char) (l : List Char) :
    (breakAfter p l).head? = l.head? := by
  induction l using breakAfter.induct p with
  | case1 => rfl
  | case2 c => rfl
  | case3 c₁ c₂ rest h ih => rw [breakAfter, if_pos h]; rfl
  | case4 c₁ c₂ rest h ih => rw [breakAfter, if_neg h]; rfl

theorem hasDoubleSpace_cons (x : Char) (t : List Char) :
    hasDoubleSpace (x :: t) =
      ((x == ' ') && (t.head? == some ' ') || hasDoubleSpace t) := by
  cases t with
  | nil => simp [hasDoubleSpace]
  | cons y r => simp [hasDoubleSpace]

theorem hasDoubleSpace_breakAfter {p : Char} {l : List Char}
    (h : hasDoubleSpace l = false) :
    hasDoubleSpace (breakAfter p l) = false := by
  induction l using breakAfter.induct p with
  | case1 => rfl
  | case2 c => rfl
  | case3 c₁ c₂ rest hm ih =>
    rw [hasDoubleSpace, Bool.or_eq_false_iff] at h
    rw [hasDoubleSpace_cons, Bool.or_eq_false_iff] at h
    rw [breakAfter, if_pos hm, hasDoubleSpace, hasDoubleSpace_cons]
    have hrest := ih h.2.2
    simp [hrest]
  | case4 c₁ c₂ rest hm ih =>
    rw [hasDoubleSpace, Bool.or_eq_false_iff] at h
    rw [breakAfter, if_neg hm, hasDoubleSpace_cons, breakAfter_head?]
    have hrest := ih h.2
    simp only [hrest, Bool.or_false, List.head?_cons]
    simpa using h.1

theorem mem_breakAfter {p c : Char} {l : List Char}
    (h : c ∈ breakAfter p l) : c ∈ l ∨ c = '\n' := by
  induction l using breakAfter.induct p with
  | case1 => simp [breakAfter] at h
  | case2 c' => exact Or.inl h
  | case3 c₁ c₂ rest hm ih =>
    rw [breakAfter, if_pos hm] at h
    rcases List.mem_cons.mp h with rfl | h'
    · exact Or.inl (List.mem_cons_self _ _)
    · rcases List.mem_cons.mp h' with rfl | h''
      · exact Or.inr rfl
      · rcases ih h'' with hmem | rfl
        · exact Or.inl (List.mem_cons_of_mem _ (List.mem_cons_of_mem _ hmem))
        · exact Or.inr rfl
  | case4 c₁ c₂ rest hm ih =>
    rw [breakAfter, if_neg hm] at h
    rcases List.mem_cons.mp h with rfl | h'
    · exact Or.inl (List.mem_cons_self _ _)
    · rcases ih h' with hmem | rfl
      · exact Or.inl (List.mem_cons_of_mem _ hmem)
      · exact Or.inr rfl

theorem newlinesMarked_of_not_mem {l : List Char} (h : '\n' ∉ l) :
    ∀ a : Bool, newlinesMarked a l = true := by
  induction l with
  | nil => intro a; rfl
  | cons c cs ih =>
    intro a
    have hc : c ≠ '\n' := fun hc => h (hc ▸ List.mem_cons_self c cs)
    have hcs : '\n' ∉ cs := fun hm => h (List.mem_cons_of_mem c hm)
    rw [newlinesMarked, ih hcs (isMark c), Bool.and_true]
    simp [bne_iff_ne, hc]

theorem newlinesMarked_breakAfter {p : Char} (hp : isMark p = true)
    (l : List Char) :
    ∀ a : Bool, newlinesMarked a l = true →
      newlinesMarked a (breakAfter p l) = true := by
  induction l using breakAfter.induct p with
  | case1 => intro a _; rfl
  | case2 c => intro a h; exact h
  | case3 c₁ c₂ rest hm ih =>
    intro a h
    obtain ⟨rfl, rfl⟩ := hm
    rw [newlinesMarked, Bool.and_eq_true, newlinesMarked, Bool.and_eq_true] at h
    obtain ⟨h1, _, h3⟩ := h
    rw [breakAfter, if_pos ⟨rfl, rfl⟩, newlinesMarked, newlinesMarked]
    have hsp : isMark ' ' = false := by decide
    have hnl : isMark '\n' = false := by decide
    rw [hsp] at h3
    rw [hnl, h1, ih false h3, hp]
    simp
  | case4 c₁ c₂ rest hm ih =>
    intro a h
    rw [newlinesMarked, Bool.and_eq_true] at h
    rw [breakAfter, if_neg hm, newlinesMarked, h.1, ih (isMark c₁) h.2]
    rfl

/-- Preservation of a property through the `for p in u'.,;:!?':` loop. -/
theorem foldl_breakAfter_pres (P : List Char → Prop)
    (hP : ∀ (p : Char) (t : List Char), isMark p = true → P t →
      P (breakAfter p t)) :
    ∀ ps : List Char, (∀ p ∈ ps, isMark p = true) →
      ∀ t, P t → P (ps.foldl (fun t p => breakAfter p t) t) := by
  intro ps
  induction ps with
  | nil => intro _ t ht; exact ht
  | cons q qs ih =>
    intro hqs t ht
    rw [List.foldl_cons]
    exact ih (fun p hp => hqs p (List.mem_cons_of_mem q hp)) _
      (hP q t (hqs q (List.mem_cons_self q qs)) ht)

theorem breakAfter_eq_self {p : Char} (hp : isMark p = true)
    {l : List Char} (h : noMarkSpace l = true) : breakAfter p l = l := by
  induction l using breakAfter.induct p with
  | case1 => rfl
  | case2 c => rfl
  | case3 c₁ c₂ rest hm ih =>
    obtain ⟨rfl, rfl⟩ := hm
    rw [noMarkSpace, Bool.and_eq_true] at h
    rw [hp] at h
    simpa using h.1
  | case4 c₁ c₂ rest hm ih =>
    rw [noMarkSpace, Bool.and_eq_true] at h
    rw [breakAfter, if_neg hm, ih h.2]

/-! ## Claim C6 -/

/-- The four-character text `a. b`: no tab, no newline, no double space. -/
def exC6 : List Char := ['a', '.', ' ', 'b']

/-- Claim C6, as stated, is false at the text `a. b`: it contains no tab,
no newline and no two consecutive spaces, yet the sentence-break step
replaces the space after the full stop with a newline, so the normalizer
does not return it unchanged. -/
theorem c6_counterexample :
    '\t' ∉ exC6 ∧ '\n' ∉ exC6 ∧ hasDoubleSpace exC6 = false ∧
    normalizeText exC6 = ['a', '.', '\n', 'b'] ∧
    normalizeText exC6 ≠ exC6 := by decide

/-- Claim C6 (amended): for every text containing no tab, no newline, no
two consecutive spaces, AND no sentence mark (`. , ; : ! ?`) immediately
followed by a space, the normalizer (steps 1–3) returns the text
unchanged. -/
theorem c6_normalize_noop (s : List Char) (h1 : '\t' ∉ s) (h2 : '\n' ∉ s)
    (h3 : hasDoubleSpace s = false) (h4 : noMarkSpace s = true) :
    normalizeText s = s := by
  have hbase :
      collapseSpaces (replaceChar '\t' ' ' (replaceChar '\n' ' ' s)) = s := by
    rw [replaceChar_eq_self ' ' h2, replaceChar_eq_self ' ' h1]
    exact collapseGo_eq_self _ h3
  have hfold : ∀ ps : List Char, (∀ p ∈ ps, isMark p = true) →
      ps.foldl (fun t p => breakAfter p t) s = s := by
    intro ps
    induction ps with
    | nil => intro _; rfl
    | cons q qs ih =>
      intro hm
      rw [List.foldl_cons,
        breakAfter_eq_self (hm q (List.mem_cons_self q qs)) h4]
      exact ih fun p hp => hm p (List.mem_cons_of_mem q hp)
  unfold normalizeText
  rw [hbase]
  exact hfold sentenceMarks (by decide)

theorem c6_witness : normalizeText ['a', 'b', ' ', 'c'] = ['a', 'b', ' ', 'c'] :=
  c6_normalize_noop ['a', 'b', ' ', 'c']
    (by decide) (by decide) (by decide) (by decide)

/-! ## Claim C7 -/

/-- Claim C7: for every input, the normalized text contains no tab, no
run of two or more consecutive spaces, and no newline that is not
immediately preceded by one of the six sentence marks; and the
double-space collapsing loop reaches its fixed point (within `length`
iterations, each one strictly shortening the text). -/
theorem c7_normalized_text_invariants (s : List Char) :
    '\t' ∉ normalizeText s ∧
    hasDoubleSpace (normalizeText s) = false ∧
    newlinesMarked false (normalizeText s) = true ∧
    hasDoubleSpace
      (collapseSpaces (replaceChar '\t' ' ' (replaceChar '\n' ' ' s))) =
      false := by
  have hmarks : ∀ p ∈ sentenceMarks, isMark p = true := by decide
  have hbase_ds :
      hasDoubleSpace
        (collapseSpaces (replaceChar '\t' ' ' (replaceChar '\n' ' ' s))) =
        false :=
    hasDoubleSpace_collapseGo _ _ (Nat.le_refl _)
  have hbase_tab :
      '\t' ∉ collapseSpaces (replaceChar '\t' ' ' (replaceChar '\n' ' ' s)) :=
    fun h => not_mem_replaceChar (by decide) _ (mem_collapseGo _ _ h)
  have hbase_nl :
      '\n' ∉ collapseSpaces (replaceChar '\t' ' ' (replaceChar '\n' ' ' s)) := by
    intro h
    rcases mem_replaceChar (mem_collapseGo _ _ h) with h2 | h2
    · exact absurd h2 (by decide)
    · exact not_mem_replaceChar (by decide) _ h2
  refine ⟨?_, ?_, ?_, hbase_ds⟩
  · exact foldl_breakAfter_pres (fun t => '\t' ∉ t)
      (fun p t _ ht h => by
        rcases mem_breakAfter h with h' | h'
        · exact ht h'
        · exact absurd h' (by decide))
      sentenceMarks hmarks _ hbase_tab
  · exact foldl_breakAfter_pres (fun t => hasDoubleSpace t = false)
      (fun p t _ ht => hasDoubleSpace_breakAfter ht)
      sentenceMarks hmarks _ hbase_ds
  · exact foldl_breakAfter_pres (fun t => newlinesMarked false t = true)
      (fun p t hp ht => newlinesMarked_breakAfter hp t false ht)
      sentenceMarks hmarks _ (newlinesMarked_of_not_mem hbase_nl false)

/-! ## Tree flattening (source lines 98–102)

```
paras = tree.getiterator(u"*")
text = u' '.join([((p.text or u'') + (p.tail or u'')) for p in paras])
```

`getiterator(u"*")` yields every element of the tree in document order
(depth-first preorder).  Each element contributes its `text` directly
followed by its `tail`; the per-element contributions are joined with
single spaces.
-/

/-- An ElementTree element: optional `text`, optional `tail`, ordered
children. -/
inductive XElem where
  | node (text : Option String) (tail : Option String) (children : List XElem)

mutual

/-- Document order (depth-first preorder), as `getiterator(u"*")` yields it. -/
def elems : XElem → List XElem
  | .node t tl cs => .node t tl cs :: elemsList cs

def elemsList : List XElem → List XElem
  | [] => []
  | c :: cs => elems c ++ elemsList cs

end

/-- One element's contribution: `(p.text or u'') + (p.tail or u'')`. -/
def contrib : XElem → String
  | .node t tl _ => t.getD "" ++ tl.getD ""

/-- Python `u' '.join(...)`. -/
def joinContribs : List String → String
  | [] => ""
  | [s] => s
  | s :: s' :: rest => s ++ " " ++ joinContribs (s' :: rest)

/-- The flattened text of a document. -/
def flattenText (doc : XElem) : String := joinContribs ((elems doc).map contrib)

/-- The document `<a>X<b>Y</b>Z</a>`: root with text `X` and no tail, one
child with text `Y` and tail `Z`. -/
def exDoc : XElem := .node (some "X") none [.node (some "Y") (some "Z") []]

/-! ## Claim C1 -/

/-- Claim C1, as stated, is false: for `<a>X<b>Y</b>Z</a>` the flattened
text is `X YZ`, not `X Y Z`.  The code concatenates each element's tail
directly after that element's text inside a single contribution (`b`
contributes `YZ`), rather than appending the tail as a separate piece
after the children. -/
theorem c1_counterexample :
    flattenText exDoc = "X YZ" ∧ flattenText exDoc ≠ "X Y Z" := by decide

/-- Claim C1 (amended): flattening visits elements in document order
(depth-first preorder), and each element's contribution is its text
directly followed by its own tail — the tail is NOT deferred until after
the children; the per-element contributions are joined with single
spaces.  On `<a>X<b>Y</b>Z</a>` this yields `X YZ`. -/
theorem c1_flatten_order :
    (∀ (t tl : Option String) (cs : List XElem),
        (elems (XElem.node t tl cs)).map contrib =
          (t.getD "" ++ tl.getD "") ::
            (cs.map fun c => (elems c).map contrib).flatten) ∧
    flattenText exDoc = "X YZ" := by
  constructor
  · intro t tl cs
    rw [elems, List.map_cons]
    refine congrArg (_ :: ·) ?_
    induction cs with
    | nil => rfl
    | cons c cs ih =>
      rw [elemsList, List.map_append, List.map_cons, List.flatten_cons, ih]
  · decide

/-! ## Entity table and entity substitution (source lines 51–67)

```
ENTITIES = {
    u'mdash': u'â€”',     # three characters U+00E2 U+20AC U+201D
    u'hellip': u'...',    # three ASCII full stops
}
...
for k in ENTITIES:
    parser.entity[k] = ENTITIES[k]
```

The UTF-8 source file stores the `mdash` replacement as the three
characters U+00E2 U+20AC U+201D — an em dash whose UTF-8 bytes were
re-decoded as a single-byte code page — not as the em dash itself.
-/

/-- The `mdash` replacement exactly as stored in the source file:
U+00E2, U+20AC, U+201D. -/
def mdashSrc : String := String.mk [Char.ofNat 0xE2, Char.ofNat 0x20AC, Char.ofNat 0x201D]

/-- The em dash character U+2014, which the claim expects for `mdash`. -/
def emDashStr : String := String.singleton (Char.ofNat 0x2014)

/-- The horizontal ellipsis character U+2026, which the claim expects for
`hellip`. -/
def hellipStr : String := String.singleton (Char.ofNat 0x2026)

/-- The fixed entity table `ENTITIES`. -/
def ENTITIES : List (String × String) := [("mdash", mdashSrc), ("hellip", "...")]

/-- Lookup in `parser.entity` after `makeparser` has populated it. -/
def lookupEntity (n : String) : Option String :=
  (ENTITIES.find? fun kv => kv.1 == n).map (·.2)

/-- A fragment of character data as seen by the parser: a plain character
or a named entity reference `&name;`. -/
inductive XTok where
  | ch (c : Char)
  | ent (name : String)

/-- Modelled from the spec: the parser (stdlib `XMLParser`/expat, not part
of this repository) substitutes each configured named entity with its
literal replacement text and fails on an entity reference that is not in
the table (§4.1, §7). -/
def resolveTok : XTok → Option String
  | .ch c => some (String.singleton c)
  | .ent n => lookupEntity n

/-- Modelled from the spec: character data with all entity references
substituted, or `none` when parsing fails on an unknown entity. -/
def resolveAll : List XTok → Option String
  | [] => some ""
  | t :: ts => (resolveTok t).bind fun s => (resolveAll ts).map fun r => s ++ r

theorem resolveAll_append {xs : List XTok} {s : String} (ys : List XTok)
    (h : resolveAll xs = some s) :
    resolveAll (xs ++ ys) = (resolveAll ys).map fun r => s ++ r := by
  induction xs generalizing s with
  | nil =>
    simp only [resolveAll] at h
    obtain rfl := Option.some_injective _ h
    cases hys : resolveAll ys <;> simp [resolveAll, hys]
  | cons t ts ih =>
    simp only [resolveAll, Option.bind_eq_some, Option.map_eq_some'] at h
    obtain ⟨s₁, hs₁, s₂, hs₂, rfl⟩ := h
    rw [List.cons_append, resolveAll, hs₁, Option.some_bind, ih hs₂]
    cases hys : resolveAll ys <;> simp [String.append_assoc]

/-! ## Claim C2 -/

/-- Claim C2, as stated, is false on both entities: `mdash` resolves to
the three characters U+00E2 U+20AC U+201D stored in the source (not the
em dash U+2014), and `hellip` resolves to the three ASCII full stops
`...` (not the horizontal ellipsis U+2026). -/
theorem c2_counterexample :
    lookupEntity "mdash" = some mdashSrc ∧ mdashSrc ≠ emDashStr ∧
    lookupEntity "hellip" = some "..." ∧ ("..." : String) ≠ hellipStr := by
  decide

/-- Claim C2 (amended): a document containing `&mdash;` or `&hellip;`
parses successfully (no error), and at that position the flattened
character data contains the table's replacement text: the three
characters U+00E2 U+20AC U+201D for `mdash`, and the three ASCII full
stops `...` for `hellip`. -/
theorem c2_entity_substitution (pre post : List XTok) (s1 s2 : String)
    (h1 : resolveAll pre = some s1) (h2 : resolveAll post = some s2) :
    resolveAll (pre ++ XTok.ent "mdash" :: post) =
      some (s1 ++ mdashSrc ++ s2) ∧
    resolveAll (pre ++ XTok.ent "hellip" :: post) =
      some (s1 ++ "..." ++ s2) := by
  constructor
  · rw [resolveAll_append _ h1, resolveAll]
    show ((lookupEntity "mdash").bind _).map _ = _
    rw [show lookupEntity "mdash" = some mdashSrc from rfl]
    simp [h2, String.append_assoc]
  · rw [resolveAll_append _ h1, resolveAll]
    show ((lookupEntity "hellip").bind _).map _ = _
    rw [show lookupEntity "hellip" = some "..." from rfl]
    simp [h2, String.append_assoc]

theorem c2_witness :
    resolveAll [XTok.ent "mdash"] = some ("" ++ mdashSrc ++ "") ∧
    resolveAll [XTok.ent "hellip"] = some ("" ++ "..." ++ "") :=
  c2_entity_substitution [] [] "" "" rfl rfl

/-! ## Output writing (source lines 113–117)

```
if type(outf) in types.StringTypes:
    with open(outf, 'w') as f:
        f.write(u'\n'.join(outlines).encode('UTF-8'))
else:
    outf.write(u'\n'.join(outlines + ['']).encode('UTF-8'))
```
-/

/-- Python `u'\n'.join(...)`. -/
def joinNL : List String → String
  | [] => ""
  | [s] => s
  | s :: s' :: rest => s ++ "\n" ++ joinNL (s' :: rest)

/-- Bytes written when `outf` is a filename (a newly created file). -/
def writeFileContent (outlines : List String) : String := joinNL outlines

/-- Bytes written when `outf` is a stream object. -/
def writeStreamContent (outlines : List String) : String :=
  joinNL (outlines ++ [""])

/-! ## Claim C8 -/

/-- Claim C8, as stated, is false when the list of output sub-lines is
empty (which happens for a document whose flattened text is empty):
`u'\n'.join([] + [''])` is the empty string, not the joined sub-lines
plus a trailing newline. -/
theorem c8_counterexample :
    writeStreamContent [] = "" ∧
    writeStreamContent [] ≠ joinNL [] ++ "\n" := by decide

/-- Claim C8 (amended): a filename destination receives exactly the
sub-lines joined by newlines, with no forced trailing newline; a stream
destination receives the join plus one trailing newline whenever there
is at least one sub-line (with no sub-lines at all, the stream receives
the empty string). -/
theorem c8_trailing_newline (outlines : List String) (h : outlines ≠ []) :
    writeFileContent outlines = joinNL outlines ∧
    writeStreamContent outlines = joinNL outlines ++ "\n" := by
  refine ⟨rfl, ?_⟩
  induction outlines with
  | nil => exact absurd rfl h
  | cons s rest ih =>
    cases rest with
    | nil => simp [writeStreamContent, joinNL]
    | cons s' rest' =>
      have hrw : (s' :: rest') ++ [""] = s' :: (rest' ++ [""]) := rfl
      have hih := ih (List.cons_ne_nil s' rest')
      rw [writeStreamContent, hrw] at hih
      rw [writeStreamContent]
      show joinNL (s :: s' :: (rest' ++ [""])) = joinNL (s :: s' :: rest') ++ "\n"
      rw [joinNL, hih, joinNL, ← String.append_assoc]

theorem c8_witness :
    writeFileContent ["a", "b"] = joinNL ["a", "b"] ∧
    writeStreamContent ["a", "b"] = joinNL ["a", "b"] ++ "\n" :=
  c8_trailing_newline ["a", "b"] (by decide)

/-! ## Command-line dispatch (source lines 120–130)

```
if len(sys.argv) == 1:
    xmltextnorm(sys.stdin, sys.stdout)
elif len(sys.argv) > 3 or (sys.argv == 2
                         and sys.argv[1] in ('-h', '--help', 'help')):
    print __doc__
else:
    infile = sys.argv[1]
    outfile = (sys.argv[2] if len(sys.argv) == 3
                           else os.path.splitext(infile)[0] + '.txt')
    xmltextnorm(infile, outfile)
```
-/

/-- What the `__main__` block decides to do.  `run infile outfileArg`
processes `infile`; `outfileArg = none` means the output name is derived
from `infile` by replacing its extension with `.txt`. -/
inductive MainAction where
  | stdio
  | help
  | run (infile : String) (outfileArg : Option String)
deriving DecidableEq

/-- The comparison `sys.argv == 2` from line 123: in Python 2 a list never
compares equal to an integer, so this condition is constantly false. -/
def pyArgvEqTwo (_argv : List String) : Bool := false

def helpArgs : List String := ["-h", "--help", "help"]

/-- The dispatch of the `__main__` block. -/
def mainDispatch (argv : List String) : MainAction :=
  if argv.length == 1 then .stdio
  else if decide (argv.length > 3) ||
      (pyArgvEqTwo argv && helpArgs.contains (argv.getD 1 "")) then .help
  else .run (argv.getD 1 "")
    (if argv.length == 3 then some (argv.getD 2 "") else none)

/-! ## Claim C9 -/

/-- Claim C9 describes the intended behavior, but the code never reaches
the help branch for a sole `-h`/`--help`/`help` argument: line 123
compares the argument LIST itself with the integer 2 (`sys.argv == 2`
instead of `len(sys.argv) == 2`), which is always false in Python 2, so
the program falls through to the processing branch and treats the help
flag as an input filename. -/
theorem c9_help_flag_is_processed :
    mainDispatch ["xmltextnorm.py", "-h"] = MainAction.run "-h" none ∧
    mainDispatch ["xmltextnorm.py", "-h"] ≠ MainAction.help ∧
    mainDispatch ["xmltextnorm.py", "--help"] ≠ MainAction.help ∧
    mainDispatch ["xmltextnorm.py", "help"] ≠ MainAction.help := by decide

end Xmltextnorm
